import Mathlib

/-!
Verification of the gosqlpp preprocessing and statement-assembly pipeline.

The Go sources under `internal/preprocessor` (preprocessor.go, conditionals.go)
and `internal/file` (processor.go) are shallowly embedded here.  Lines and
file names are modelled as `List Char`; the Go `map[string]Define` is modelled
as an association list whose list order stands for one possible iteration
order of the Go map (Go map iteration order is unspecified and randomized).
Go's `regexp` patterns used by the preprocessor are hand-translated to
executable parsers that reproduce the leftmost-first matching semantics of
each concrete pattern.  A Go runtime panic (slice out of range) is modelled
as a distinguished error value, and the unbounded recursion of file inclusion
is modelled with a fuel parameter (fuel is consumed once per `ProcessFile`
call, i.e. once per inclusion depth).
-/

/-- A line / string, modelled as a list of characters. -/
abbrev Str := List Char

/-- The double-quote character. -/
def dqc : Char := Char.ofNat 34

/-- The single-quote character. -/
def sqc : Char := Char.ofNat 39

/-- Characters treated as whitespace by Go's `strings.TrimSpace`
(`unicode.IsSpace`), restricted to the Latin-1 range that can appear in
the scripts we model. -/
def isSpaceChar (c : Char) : Bool :=
  c.toNat = 32 || c.toNat = 9 || c.toNat = 10 || c.toNat = 11 ||
  c.toNat = 12 || c.toNat = 13 || c.toNat = 133 || c.toNat = 160

/-- Characters matched by the regexp class `\s` (`[\t\n\f\r ]`). -/
def isRegexSpace (c : Char) : Bool :=
  c.toNat = 32 || c.toNat = 9 || c.toNat = 10 || c.toNat = 12 || c.toNat = 13

/-- Characters matched by the regexp class `\w` (`[0-9A-Za-z_]`). -/
def isWordChar (c : Char) : Bool :=
  (48 ≤ c.toNat && c.toNat ≤ 57) || (65 ≤ c.toNat && c.toNat ≤ 90) ||
  (97 ≤ c.toNat && c.toNat ≤ 122) || c.toNat = 95

theorem isWordChar_not_space (c : Char) (h : isWordChar c = true) :
    isSpaceChar c = false := by
  simp [isWordChar] at h
  simp [isSpaceChar]
  omega

theorem isWordChar_not_regexSpace (c : Char) (h : isWordChar c = true) :
    isRegexSpace c = false := by
  simp [isWordChar] at h
  simp [isRegexSpace]
  omega

/-- `strings.TrimSpace`, left part. -/
def trimLeft (s : Str) : Str := s.dropWhile isSpaceChar

/-- `strings.TrimSpace`, right part. -/
def trimRight (s : Str) : Str := (s.reverse.dropWhile isSpaceChar).reverse

/-- Go `strings.TrimSpace`. -/
def trimSpace (s : Str) : Str := trimRight (trimLeft s)

/-- ASCII `strings.ToLower` (scripts modelled here are ASCII). -/
def toLowerChar (c : Char) : Char :=
  if 65 ≤ c.toNat ∧ c.toNat ≤ 90 then Char.ofNat (c.toNat + 32) else c

/-- Helper for `splitRuns`: prepend `c` to the first run when it has the same
character class, otherwise start a new run. -/
def splitRunsAux (c : Char) : List Str → List Str
  | [] => [[c]]
  | [] :: rs => [c] :: rs
  | (d :: t) :: rs =>
    if isWordChar c = isWordChar d then (c :: d :: t) :: rs
    else [c] :: (d :: t) :: rs

/-- Split a string into maximal runs of characters of equal `isWordChar`
class.  A regexp match of `\b name \b` (with `name` a nonempty `\w+` string)
is exactly a maximal word run equal to `name`, so `ReplaceAllString` of that
pattern rewrites exactly the runs equal to `name`. -/
def splitRuns : Str → List Str
  | [] => []
  | c :: rest => splitRunsAux c (splitRuns rest)

theorem join_splitRunsAux (c : Char) (l : List Str) :
    (splitRunsAux c l).flatten = c :: l.flatten := by
  match l with
  | [] => rfl
  | [] :: rs => simp [splitRunsAux]
  | (d :: t) :: rs =>
    by_cases hw : isWordChar c = isWordChar d <;> simp [splitRunsAux, hw]

theorem join_splitRuns (s : Str) : (splitRuns s).flatten = s := by
  induction s with
  | nil => rfl
  | cons c rest ih => simp [splitRuns, join_splitRunsAux, ih]

theorem splitRuns_all_word (n : Str) (h0 : n ≠ []) (hw : n.all isWordChar = true) :
    splitRuns n = [n] := by
  induction n with
  | nil => exact absurd rfl h0
  | cons c rest ih =>
    cases rest with
    | nil => rfl
    | cons d rest' =>
      simp only [List.all_cons, Bool.and_eq_true] at hw
      have hr : splitRuns (d :: rest') = [d :: rest'] := by
        apply ih
        · exact List.cons_ne_nil d rest'
        · simp [List.all_cons, hw.2.1, hw.2.2]
      have hcd : isWordChar c = isWordChar d := by rw [hw.1, hw.2.1]
      have step : splitRuns (c :: d :: rest') = splitRunsAux c (splitRuns (d :: rest')) := rfl
      rw [step, hr]
      simp [splitRunsAux, hcd]

/-- One `ReplaceAllString` pass of the regexp `\b name \b` built in
`substituteVariables` (preprocessor.go): every maximal word run equal to
`name` is replaced by `value`, in a single left-to-right pass over the
original string (replacement text is not rescanned by this pass). -/
def replaceWord (name value : Str) (s : Str) : Str :=
  ((splitRuns s).map (fun t => if t == name then value else t)).flatten

/-- `substituteVariables` (preprocessor.go:174-184): iterate over the define
table (the list order models one Go map iteration order), applying one
whole-word replacement pass per define to the running result. -/
def substituteVariables (defines : List (Str × Str)) (s : Str) : Str :=
  defines.foldl (fun acc d => replaceWord d.1 d.2 acc) s

/-- Definition following the words of the spec (§4.1), for comparison with
`substituteVariables`: "replaces every whole-token occurrence of every known
name with its value, applying all known names within a single pass so that a
substituted value is not itself re-scanned for further substitution".
A single left-to-right pass over the token runs of the line; each run
matching some define's name is replaced by that define's value, and the
inserted value is never rescanned. -/
def singlePassSubstitute (defines : List (Str × Str)) (s : Str) : Str :=
  ((splitRuns s).map (fun t =>
    match defines.find? (fun d => d.1 == t) with
    | some d => d.2
    | none => t)).flatten

theorem replaceWord_self (n v : Str) (h0 : n ≠ []) (hw : n.all isWordChar = true) :
    replaceWord n v n = v := by
  simp [replaceWord, splitRuns_all_word n h0 hw]

theorem map_keep_of_no_match (n v : Str) (l : List Str)
    (h : ∀ t ∈ l, t ≠ n) : l.map (fun t => if t == n then v else t) = l := by
  induction l with
  | nil => rfl
  | cons t rest ih =>
    have h1 : t ≠ n := h t (List.mem_cons_self t rest)
    have h2 : ∀ u ∈ rest, u ≠ n := fun u hu => h u (List.mem_cons_of_mem t hu)
    rw [List.map_cons, ih h2]
    have hb : (t == n) = false := by simp [h1]
    simp [hb]

theorem replaceWord_no_occurrence (n v s : Str)
    (h : ∀ t ∈ splitRuns s, t ≠ n) : replaceWord n v s = s := by
  unfold replaceWord
  rw [map_keep_of_no_match n v (splitRuns s) h, join_splitRuns]

/-- Claim C2, counterexample.  The claim states that substitution applies all
known names in a single pass so that text introduced by one define's value is
never rescanned and further substituted.  With the define table containing
A -> B and B -> A (in either Go map iteration order), the code's sequential
per-define passes over the line give, on input line "A B", the output "A A"
or "B B" (the text inserted by the first pass is substituted again by the
second pass), while the single-pass semantics described by the spec gives
"B A". -/
theorem c2_counterexample :
    substituteVariables ([(("A").toList, ("B").toList), (("B").toList, ("A").toList)])
      (("A B").toList) = ("A A").toList ∧
    substituteVariables ([(("B").toList, ("A").toList), (("A").toList, ("B").toList)])
      (("A B").toList) = ("B B").toList ∧
    singlePassSubstitute ([(("A").toList, ("B").toList), (("B").toList, ("A").toList)])
      (("A B").toList) = ("B A").toList ∧
    singlePassSubstitute ([(("B").toList, ("A").toList), (("A").toList, ("B").toList)])
      (("A B").toList) = ("B A").toList ∧
    ("A A").toList ≠ ("B A").toList ∧ ("B B").toList ≠ ("B A").toList := by
  refine ⟨by decide, by decide, by decide, by decide, by decide, by decide⟩

/-- Claim C2, amended: `substituteVariables` applies the known defines
sequentially, one whole-line whole-token replacement pass per define in
table-iteration order; text introduced by substituting one define's value is
not rescanned within that same define's pass (in particular a value
containing the define's own name is inserted verbatim and not expanded
again), but it is rescanned, and may be further substituted, by defines
applied later in the iteration. -/
theorem c2_sequential_substitution :
    (∀ d ds s, substituteVariables (d :: ds) s =
      substituteVariables ds (replaceWord d.1 d.2 s)) ∧
    (∀ n v : Str, n ≠ [] → n.all isWordChar = true → replaceWord n v n = v) := by
  constructor
  · intro d ds s
    rfl
  · intro n v h0 hw
    exact replaceWord_self n v h0 hw

theorem c2_sequential_substitution_witness :
    substituteVariables ((("A").toList, ("B").toList) :: [(("B").toList, ("A").toList)])
      (("A B").toList) =
      substituteVariables ([(("B").toList, ("A").toList)])
        (replaceWord (("A").toList) (("B").toList) (("A B").toList)) ∧
    replaceWord (("A").toList) (("(A)").toList) (("A").toList) = ("(A)").toList :=
  ⟨c2_sequential_substitution.1 ((("A").toList, ("B").toList)) _ _,
   c2_sequential_substitution.2 (("A").toList) (("(A)").toList) (by decide) (by decide)⟩

/-- Claim C3: expansion is claimed to be deterministic regardless of the
internal iteration order over the define table.  The substitution loop of
`substituteVariables` (preprocessor.go:174-184) ranges over a Go map, whose
iteration order is unspecified and randomized between runs; with the define
table containing A -> B and B -> C, the two possible iteration orders
(modelled by the two permuted association lists) produce different outputs
for the input line "A", so two runs of the expander over the same script and
defines can produce different output. -/
theorem c3_substitution_order_dependent :
    List.Perm ([(("A").toList, ("B").toList), (("B").toList, ("C").toList)])
      ([(("B").toList, ("C").toList), (("A").toList, ("B").toList)]) ∧
    substituteVariables ([(("A").toList, ("B").toList), (("B").toList, ("C").toList)])
      (("A").toList) = ("C").toList ∧
    substituteVariables ([(("B").toList, ("C").toList), (("A").toList, ("B").toList)])
      (("A").toList) = ("B").toList ∧
    ("C").toList ≠ ("B").toList :=
  ⟨List.Perm.swap ((("B").toList, ("C").toList)) ((("A").toList, ("B").toList)) [],
   by decide, by decide, by decide⟩

/-- Claim C8: substitution replaces only whole-token (word-boundary)
occurrences, case-sensitively.  If no token run of the line equals any
defined name (in particular when every defined name occurs in the line only
as a proper substring of a longer identifier, or only in different case),
the line is left unchanged by `substituteVariables`. -/
theorem c8_whole_token_substitution (ds : List (Str × Str)) (s : Str)
    (h : ∀ d ∈ ds, ∀ t ∈ splitRuns s, t ≠ d.1) :
    substituteVariables ds s = s := by
  induction ds with
  | nil => rfl
  | cons d rest ih =>
    have hd : replaceWord d.1 d.2 s = s := by
      apply replaceWord_no_occurrence
      intro t ht
      exact h d (List.mem_cons_self d rest) t ht
    have step : substituteVariables (d :: rest) s =
        substituteVariables rest (replaceWord d.1 d.2 s) := rfl
    rw [step, hd]
    exact ih (fun e he t ht => h e (List.mem_cons_of_mem d he) t ht)

theorem c8_whole_token_substitution_witness :
    substituteVariables ([(("TRUE").toList, ("Y").toList)])
      (("SELECT TRUELY, true FROM t").toList) =
      ("SELECT TRUELY, true FROM t").toList :=
  c8_whole_token_substitution ([(("TRUE").toList, ("Y").toList)])
    (("SELECT TRUELY, true FROM t").toList) (by decide)

deriving instance DecidableEq for Except

/-- Keyword used by the dispatcher `processLineWithConditionals` / `processLine`
(`strings.HasPrefix` checks include the trailing space). -/
def dDefine : Str := ("#define ").toList

/-- Dispatcher keyword for inclusion. -/
def dInclude : Str := ("#include ").toList

/-- Dispatcher keyword for conditional open. -/
def dIfdef : Str := ("#ifdef ").toList

/-- Dispatcher keyword for negative conditional open. -/
def dIfndef : Str := ("#ifndef ").toList

/-- Dispatcher keyword for conditional close (`trimmed == "#end"`). -/
def dEnd : Str := ("#end").toList

/-- Regexp literal head of `^#define\s+...`. -/
def rDefine : Str := ("#define").toList

/-- Regexp literal head of `^#include\s+...`. -/
def rInclude : Str := ("#include").toList

/-- Regexp literal head of `^#ifdef\s+...`. -/
def rIfdef : Str := ("#ifdef").toList

/-- Regexp literal head of `^#ifndef\s+...`. -/
def rIfndef : Str := ("#ifndef").toList

/-- Does the suffix `s` match the regexp `\s*//.*$` (an optional trailing
line comment)? -/
def isCommentRest (s : Str) : Bool := ("//").toList.isPrefixOf (s.dropWhile isRegexSpace)

/-- Helper of `cutComment`: stop (discard the remainder) at the first
position where a trailing comment `\s*//.*` starts. -/
def cutCommentAux : Str → Str
  | [] => []
  | c :: rest => if isCommentRest (c :: rest) then [] else c :: cutCommentAux rest

/-- The text captured by the lazy group `(.+?)` of
`^#define\s+(\w+)\s+(.+?)(?:\s*//.*)?$` on a nonempty value suffix: at least
one character, then cut at the first position where `\s*//.*` can match the
entire remainder (leftmost-first semantics of the optional comment group). -/
def cutComment : Str → Str
  | [] => []
  | c :: rest => c :: cutCommentAux rest

/-- Parse of the regexp `^#define\s+(\w+)\s+(.+?)(?:\s*//.*)?$` used by
`processDefine` (preprocessor.go:121), returning the two capture groups.
When everything after the name is whitespace, the backtracking of `\s+`
yields the final whitespace character as the (.+?) group provided at least
two whitespace characters follow the name. -/
def parseDefine (t : Str) : Option (Str × Str) :=
  if rDefine.isPrefixOf t then
    let s1 := t.drop 7
    if s1.takeWhile isRegexSpace = [] then none else
    let s2 := s1.dropWhile isRegexSpace
    let name := s2.takeWhile isWordChar
    if name = [] then none else
    let s3 := s2.dropWhile isWordChar
    let ws2 := s3.takeWhile isRegexSpace
    if ws2 = [] then none else
    let rest := s3.dropWhile isRegexSpace
    if rest = [] then
      if 2 ≤ ws2.length then some (name, ws2.drop (ws2.length - 1)) else none
    else some (name, cutComment rest)
  else none

/-- Parse of the regexps `^#ifdef\s+(\w+)(?:\s*//.*)?$` and
`^#ifndef\s+(\w+)(?:\s*//.*)?$` (conditionals.go:83,116): keyword, at least
one whitespace, a maximal nonempty word run, then nothing or a trailing
comment. -/
def parseCondName (kw : Str) (t : Str) : Option Str :=
  if kw.isPrefixOf t then
    let s1 := t.drop kw.length
    if s1.takeWhile isRegexSpace = [] then none else
    let s2 := s1.dropWhile isRegexSpace
    let name := s2.takeWhile isWordChar
    if name = [] then none else
    let rest := s2.dropWhile isWordChar
    if rest = [] || isCommentRest rest then some name else none
  else none

/-- Parse of the regexp `^#include\s+"([^"]+)"(?:\s*//.*)?$`
(preprocessor.go:149), returning the quoted path. -/
def parseIncludeTarget (t : Str) : Option Str :=
  if rInclude.isPrefixOf t then
    let s1 := t.drop 8
    if s1.takeWhile isRegexSpace = [] then none else
    match s1.dropWhile isRegexSpace with
    | [] => none
    | c :: s3 =>
      if c == dqc then
        let body := s3.takeWhile (fun x => x != dqc)
        if body = [] then none else
        match s3.dropWhile (fun x => x != dqc) with
        | [] => none
        | _ :: rest => if rest = [] || isCommentRest rest then some body else none
      else none
  else none

/-- `SourceLocation` (preprocessor.go:14). -/
structure SourceLocation where
  fileName : Str
  lineNumber : Nat
  originalFile : Str
  originalLine : Nat
deriving DecidableEq, Repr

/-- One emitted output line paired with its source location; models the two
parallel slices `[]string` / `[]SourceLocation` returned by the Go code,
which are always extended in lockstep. -/
structure RawLine where
  text : Str
  loc : SourceLocation
deriving DecidableEq, Repr

/-- `ConditionalBlock` (conditionals.go:10). -/
structure ConditionalBlock where
  ctype : String
  varName : Str
  startLine : Nat
  active : Bool
deriving DecidableEq, Repr

/-- The mutable state of a `Preprocessor` (preprocessor.go:28): the define
table (an association list standing for `map[string]Define` in one
iteration order; the `Define.Name` field always equals the key) and the
conditional stack (top of stack at the end of the list, as Go appends). -/
structure Preprocessor where
  defines : List (Str × Str)
  conditionalStack : List ConditionalBlock
deriving DecidableEq, Repr

/-- Update of `p.defines[name] = Define{...}` on the association list. -/
def updateAssoc : List (Str × Str) → Str → Str → List (Str × Str)
  | [], n, v => [(n, v)]
  | (k, w) :: rest, n, v =>
    if k == n then (n, v) :: rest else (k, w) :: updateAssoc rest n v

/-- `SetDefine` / the store in `processDefine`. -/
def setDefine (p : Preprocessor) (n v : Str) : Preprocessor :=
  { p with defines := updateAssoc p.defines n v }

/-- `HasDefine` (preprocessor.go:204). -/
def hasDefine (p : Preprocessor) (n : Str) : Bool :=
  p.defines.any (fun d => d.1 == n)

/-- `ConditionalStack.ShouldInclude` (conditionals.go:51): true iff every
block on the stack is active. -/
def shouldInclude (stack : List ConditionalBlock) : Bool :=
  stack.all (fun b => b.active)

/-- Errors and abnormal outcomes of preprocessing.  `panicSlice` models the
Go runtime panic `slice bounds out of range`; `outOfFuel` is the embedding
artifact for exceeding the modelled inclusion depth. -/
inductive ProcErr where
  | invalidDefine (file : Str) (line : Nat)
  | invalidInclude (file : Str) (line : Nat)
  | invalidIfdef (file : Str) (line : Nat)
  | invalidIfndef (file : Str) (line : Nat)
  | endWithoutOpen (file : Str) (line : Nat)
  | unclosedBlocks (file : Str)
  | fileOpen (file : Str)
  | includeWrap (file : Str) (line : Nat) (inner : ProcErr)
  | panicSlice
  | outOfFuel
deriving DecidableEq, Repr

/-- `processDefine` (preprocessor.go:119-144): parse the directive, trim the
captured value, strip one layer of same-character quotes when the value both
starts and ends with `"` or both with `'` — panicking (modelled as
`ProcErr.panicSlice`) when that value is a single quote character, since
`value[1:0]` is out of range — and store the define.  No output lines are
produced. -/
def processDefine (t f : Str) (ln : Nat) (p : Preprocessor) :
    Except ProcErr Preprocessor :=
  match parseDefine t with
  | none => .error (.invalidDefine f ln)
  | some (name, raw) =>
    let value := trimSpace raw
    if (value.head? == some dqc && value.getLast? == some dqc) ||
       (value.head? == some sqc && value.getLast? == some sqc) then
      if 2 ≤ value.length then .ok (setDefine p name ((value.drop 1).dropLast))
      else .error .panicSlice
    else .ok (setDefine p name value)

/-- `processIfdef` (conditionals.go:79-109): parse the name; the pushed
block's active flag is the define-existence test AND the activity of the
enclosing stack. -/
def processIfdef (t f : Str) (ln : Nat) (p : Preprocessor) :
    Except ProcErr Preprocessor :=
  match parseCondName rIfdef t with
  | none => .error (.invalidIfdef f ln)
  | some name =>
    let act := hasDefine p name && shouldInclude p.conditionalStack
    .ok { p with conditionalStack :=
            p.conditionalStack ++ [⟨"ifdef", name, ln, act⟩] }

/-- `processIfndef` (conditionals.go:112-142). -/
def processIfndef (t f : Str) (ln : Nat) (p : Preprocessor) :
    Except ProcErr Preprocessor :=
  match parseCondName rIfndef t with
  | none => .error (.invalidIfndef f ln)
  | some name =>
    let act := !hasDefine p name && shouldInclude p.conditionalStack
    .ok { p with conditionalStack :=
            p.conditionalStack ++ [⟨"ifndef", name, ln, act⟩] }

/-- `processEnd` (conditionals.go:145-159): pop the innermost block,
erroring on an empty stack. -/
def processEnd (f : Str) (ln : Nat) (p : Preprocessor) :
    Except ProcErr Preprocessor :=
  if p.conditionalStack.isEmpty then .error (.endWithoutOpen f ln)
  else .ok { p with conditionalStack := p.conditionalStack.dropLast }

/-- Split a path on `/`. -/
def splitSlash (s : Str) : List Str := s.splitOn '/'

/-- `filepath.IsAbs` on Unix. -/
def isAbsPath (s : Str) : Bool :=
  match s with
  | c :: _ => c == '/'
  | [] => false

/-- Element processing of `filepath.Clean` (Unix): drop empty and `.`
elements; `..` pops the previous element, accumulates at the head of a
relative path, and is dropped at the root of an absolute one. -/
def cleanElems (rooted : Bool) : List Str → List Str → List Str
  | acc, [] => acc
  | acc, e :: rest =>
    if e = [] || e = ['.'] then cleanElems rooted acc rest
    else if e = ['.', '.'] then
      match acc.getLast? with
      | some l =>
        if l = ['.', '.'] then cleanElems rooted (acc ++ [e]) rest
        else cleanElems rooted acc.dropLast rest
      | none => if rooted then cleanElems rooted acc rest else cleanElems rooted [e] rest
    else cleanElems rooted (acc ++ [e]) rest

/-- `filepath.Clean` (Unix). -/
def cleanPath (pth : Str) : Str :=
  let rooted := isAbsPath pth
  let elems := cleanElems rooted [] (splitSlash pth)
  let body := (elems.intersperse (['/'])).flatten
  if rooted then '/' :: body else if body = [] then ['.'] else body

/-- `filepath.Dir`: everything up to and including the last slash, cleaned. -/
def dirPath (f : Str) : Str :=
  cleanPath ((f.reverse.dropWhile (fun c => c != '/')).reverse)

/-- `filepath.Join` of two elements on Unix. -/
def joinPath (a b : Str) : Str :=
  if a = [] then cleanPath b
  else if b = [] then cleanPath a
  else cleanPath (a ++ '/' :: b)

/-- Path resolution of `processInclude` (preprocessor.go:159-162): a
relative target resolves against the directory of the including file. -/
def resolvePath (includer target : Str) : Str :=
  if isAbsPath target then target else joinPath (dirPath includer) target

/-- The file system: maps a path to the list of lines of that file, or
`none` when the file cannot be opened. -/
abbrev FS := Str → Option (List Str)

/-- A pending unit of work for the recursive expander: process a whole file
(`ProcessFile` / `processReader`), or the remaining lines of the file
currently being read (`ln` lines already consumed). -/
inductive PJob where
  | file (f : Str)
  | lines (f : Str) (rest : List Str) (ln : Nat)

/-- The recursive core of the Source Expander, merging `ProcessFile`,
`processReader`, `processLineWithConditionals`, `processLine` and
`processInclude` into one function that is structurally recursive on the
fuel (one unit of fuel per file entered and per line processed, so that the
definition reduces on concrete inputs).  The per-line dispatch follows
conditionals.go:162-190 and preprocessor.go:93-116 exactly: `#ifdef`,
`#ifndef`, `#end`, then the activity gate, then `#define`, `#include`, and
finally substitution and emission of an ordinary content line with the
current file and line number as its origin. -/
def runP : Nat → FS → Preprocessor → PJob → Except ProcErr (List RawLine × Preprocessor)
  | _, _, p, .lines _ [] _ => .ok ([], p)
  | 0, _, _, _ => .error .outOfFuel
  | fuel + 1, fs, p, .file f =>
    match fs f with
    | none => .error (.fileOpen f)
    | some ls =>
      match runP fuel fs p (.lines f ls 0) with
      | .error e => .error e
      | .ok (out, p') =>
        if p'.conditionalStack.isEmpty then .ok (out, p')
        else .error (.unclosedBlocks f)
  | fuel + 1, fs, p, .lines f (line :: rest) ln =>
    let t := trimSpace line
    if dIfdef.isPrefixOf t then
      match processIfdef t f (ln + 1) p with
      | .error e => .error e
      | .ok p' => runP fuel fs p' (.lines f rest (ln + 1))
    else if dIfndef.isPrefixOf t then
      match processIfndef t f (ln + 1) p with
      | .error e => .error e
      | .ok p' => runP fuel fs p' (.lines f rest (ln + 1))
    else if t == dEnd then
      match processEnd f (ln + 1) p with
      | .error e => .error e
      | .ok p' => runP fuel fs p' (.lines f rest (ln + 1))
    else if !shouldInclude p.conditionalStack then
      runP fuel fs p (.lines f rest (ln + 1))
    else if dDefine.isPrefixOf t then
      match processDefine t f (ln + 1) p with
      | .error e => .error e
      | .ok p' => runP fuel fs p' (.lines f rest (ln + 1))
    else if dInclude.isPrefixOf t then
      match parseIncludeTarget t with
      | none => .error (.invalidInclude f (ln + 1))
      | some target =>
        match runP fuel fs p (.file (resolvePath f target)) with
        | .error e => .error (.includeWrap f (ln + 1) e)
        | .ok (out, p') =>
          match runP fuel fs p' (.lines f rest (ln + 1)) with
          | .error e => .error e
          | .ok (out2, p'') => .ok (out ++ out2, p'')
    else
      match runP fuel fs p (.lines f rest (ln + 1)) with
      | .error e => .error e
      | .ok (out2, p') =>
        .ok (⟨substituteVariables p.defines line, ⟨f, ln + 1, f, ln + 1⟩⟩ :: out2, p')

/-- `ProcessFile` / `processReader` on a whole file. -/
def processFileFs (fuel : Nat) (fs : FS) (p : Preprocessor) (f : Str) :
    Except ProcErr (List RawLine × Preprocessor) :=
  runP fuel fs p (.file f)

/-- The scanner loop of `processReader` on the remaining lines of file `f`,
with `ln` lines already consumed. -/
def runLines (fuel : Nat) (fs : FS) (p : Preprocessor) (f : Str)
    (lines : List Str) (ln : Nat) : Except ProcErr (List RawLine × Preprocessor) :=
  runP fuel fs p (.lines f lines ln)

/-- `processLineWithConditionals` on a single line numbered `ln + 1`. -/
def processLineWithConditionals (fuel : Nat) (fs : FS) (line f : Str)
    (ln : Nat) (p : Preprocessor) : Except ProcErr (List RawLine × Preprocessor) :=
  runP fuel fs p (.lines f [line] ln)

/-- The line of `fs`-file `f` with (1-based) number `n`. -/
def lineAt (fs : FS) (f : Str) (n : Nat) : Option Str :=
  match fs f with
  | none => none
  | some ls => ls.get? (n - 1)

/-- A line whose trimmed form is recognized as one of the five preprocessor
directives by the dispatch of `processLineWithConditionals` and
`processLine`. -/
def isDirectiveLine (line : Str) : Bool :=
  let t := trimSpace line
  dIfdef.isPrefixOf t || dIfndef.isPrefixOf t || (t == dEnd) ||
    dDefine.isPrefixOf t || dInclude.isPrefixOf t

theorem takeWhile_eq_self_of_all (p : Char → Bool) (l : Str) (h : l.all p = true) :
    l.takeWhile p = l := by
  induction l with
  | nil => rfl
  | cons c rest ih =>
    simp only [List.all_cons, Bool.and_eq_true] at h
    simp [List.takeWhile_cons, h.1, ih h.2]

theorem dropWhile_eq_nil_of_all (p : Char → Bool) (l : Str) (h : l.all p = true) :
    l.dropWhile p = [] := by
  induction l with
  | nil => rfl
  | cons c rest ih =>
    simp only [List.all_cons, Bool.and_eq_true] at h
    simp [List.dropWhile_cons, h.1, ih h.2]

theorem takeWhile_word_not_space (n : Str) (hw : n.all isWordChar = true) :
    n.takeWhile isRegexSpace = [] := by
  cases n with
  | nil => rfl
  | cons c rest =>
    simp only [List.all_cons, Bool.and_eq_true] at hw
    simp [List.takeWhile_cons, isWordChar_not_regexSpace c hw.1]

theorem dropWhile_word_not_space (n : Str) (hw : n.all isWordChar = true) :
    n.dropWhile isRegexSpace = n := by
  cases n with
  | nil => rfl
  | cons c rest =>
    simp only [List.all_cons, Bool.and_eq_true] at hw
    simp [List.dropWhile_cons, isWordChar_not_regexSpace c hw.1]

theorem getLast?_append_right (l₁ l₂ : Str) (h : l₂ ≠ []) :
    (l₁ ++ l₂).getLast? = l₂.getLast? := by
  induction l₁ with
  | nil => rfl
  | cons c rest ih =>
    have h2 : l₂.getLast?.isSome := List.getLast?_isSome.mpr h
    obtain ⟨y, hy⟩ := Option.isSome_iff_exists.mp h2
    rw [List.cons_append, List.getLast?_cons, ih, hy]
    rfl

theorem trimSpace_eq_self (s : Str)
    (hh : ∀ c, s.head? = some c → isSpaceChar c = false)
    (hl : ∀ c, s.getLast? = some c → isSpaceChar c = false) :
    trimSpace s = s := by
  cases s with
  | nil => rfl
  | cons c rest =>
    have hc : isSpaceChar c = false := hh c rfl
    unfold trimSpace trimLeft trimRight
    rw [List.dropWhile_cons, hc]
    simp only [Bool.false_eq_true, if_false]
    cases hrev : (c :: rest).reverse with
    | nil => simp at hrev
    | cons d r =>
      have hd : (c :: rest).getLast? = some d := by
        rw [← List.head?_reverse, hrev]
        rfl
      rw [List.dropWhile_cons, hl d hd]
      simp only [Bool.false_eq_true, if_false]
      rw [← hrev, List.reverse_reverse]

theorem parseCondName_name (kw n : Str) (h0 : n ≠ []) (hw : n.all isWordChar = true) :
    parseCondName kw (kw ++ ' ' :: n) = some n := by
  have hpre : kw.isPrefixOf (kw ++ ' ' :: n) = true := by
    induction kw with
    | nil => rfl
    | cons c r ih => simp [List.isPrefixOf, ih]
  have hdrop : (kw ++ ' ' :: n).drop kw.length = ' ' :: n := List.drop_left kw (' ' :: n)
  unfold parseCondName
  rw [hpre]
  simp only [if_true]
  rw [hdrop]
  rw [List.takeWhile_cons]
  have hsp : isRegexSpace ' ' = true := by decide
  rw [hsp]
  simp only [if_true]
  rw [List.dropWhile_cons]
  rw [hsp]
  simp only [if_true]
  rw [takeWhile_word_not_space n hw, dropWhile_word_not_space n hw]
  rw [takeWhile_eq_self_of_all isWordChar n hw, dropWhile_eq_nil_of_all isWordChar n hw]
  simp [h0]

/-- Claim C4: for balanced conditional nesting, lines inside a frame whose
enclosing frame is inactive are suppressed regardless of the inner frame's
own test.  Formally: (i) `processIfdef` pushes a block whose active flag is
the AND of its own define-existence test and the activity of every enclosing
frame (`shouldInclude` of the stack below it); (ii) `processIfndef` does the
same with the negated test; (iii) whenever some frame on the stack is
inactive (`shouldInclude` is false), processing any line emits no output
line — so every content line under an inactive enclosing frame is
suppressed, and a line is emitted only when every frame on the stack is
active. -/
theorem c4_conditional_nesting :
    (∀ (n f : Str) (ln : Nat) (p : Preprocessor), n ≠ [] → n.all isWordChar = true →
      processIfdef (dIfdef ++ n) f ln p =
        .ok { p with conditionalStack := p.conditionalStack ++
          [⟨"ifdef", n, ln, hasDefine p n && shouldInclude p.conditionalStack⟩] }) ∧
    (∀ (n f : Str) (ln : Nat) (p : Preprocessor), n ≠ [] → n.all isWordChar = true →
      processIfndef (dIfndef ++ n) f ln p =
        .ok { p with conditionalStack := p.conditionalStack ++
          [⟨"ifndef", n, ln, !hasDefine p n && shouldInclude p.conditionalStack⟩] }) ∧
    (∀ (fuel : Nat) (fs : FS) (line f : Str) (ln : Nat) (p : Preprocessor)
        (out : List RawLine) (p' : Preprocessor),
      shouldInclude p.conditionalStack = false →
      processLineWithConditionals fuel fs line f ln p = .ok (out, p') → out = []) := by
  refine ⟨?_, ?_, ?_⟩
  · intro n f ln p h0 hw
    have he : dIfdef ++ n = rIfdef ++ ' ' :: n := rfl
    rw [he]
    unfold processIfdef
    rw [parseCondName_name rIfdef n h0 hw]
  · intro n f ln p h0 hw
    have he : dIfndef ++ n = rIfndef ++ ' ' :: n := rfl
    rw [he]
    unfold processIfndef
    rw [parseCondName_name rIfndef n h0 hw]
  · intro fuel fs line f ln p out p' hsi h
    cases fuel with
    | zero => simp [processLineWithConditionals, runP] at h
    | succ fuel =>
      simp only [processLineWithConditionals, runP, hsi, Bool.not_false, if_true] at h
      repeat' split at h
      all_goals try (simp only [Except.ok.injEq, Prod.mk.injEq] at h; exact h.1.symm)
      all_goals simp at h

theorem isPrefixOf_append_self (l t : Str) : l.isPrefixOf (l ++ t) = true := by
  induction l with
  | nil => cases t <;> rfl
  | cons c r ih => simp [List.isPrefixOf, ih]

theorem takeWhile_append_all (p : Char → Bool) (a y : Str) (h : a.all p = true) :
    (a ++ y).takeWhile p = a ++ y.takeWhile p := by
  induction a with
  | nil => rfl
  | cons c r ih =>
    simp only [List.all_cons, Bool.and_eq_true] at h
    simp [List.takeWhile_cons, h.1, ih h.2]

theorem dropWhile_append_all (p : Char → Bool) (a y : Str) (h : a.all p = true) :
    (a ++ y).dropWhile p = y.dropWhile p := by
  induction a with
  | nil => rfl
  | cons c r ih =>
    simp only [List.all_cons, Bool.and_eq_true] at h
    simp [List.dropWhile_cons, h.1, ih h.2]

theorem all_getLast? (p : Char → Bool) (l : Str) (h : l.all p = true) :
    ∀ c, l.getLast? = some c → p c = true := by
  induction l with
  | nil => intro c hc; simp at hc
  | cons d r ih =>
    intro c hc
    simp only [List.all_cons, Bool.and_eq_true] at h
    cases r with
    | nil => simp at hc; rw [← hc]; exact h.1
    | cons e r' =>
      rw [List.getLast?_cons_cons] at hc
      exact ih h.2 c hc

theorem all_head (p : Char → Bool) (l : Str) (h : l.all p = true) :
    ∀ c, l.head? = some c → p c = true := by
  intro c hc
  cases l with
  | nil => simp at hc
  | cons d r =>
    simp only [List.head?_cons, Option.some.injEq] at hc
    simp only [List.all_cons, Bool.and_eq_true] at h
    rw [← hc]
    exact h.1

theorem slash_beq_word (d : Char) (h : isWordChar d = true) : (('/' : Char) == d) = false := by
  have hne : ('/' : Char) ≠ d := by
    intro e
    rw [← e] at h
    simp [isWordChar] at h
  simp [hne]

theorem isCommentRest_space_word (b : Str) (h0 : b ≠ []) (hw : b.all isWordChar = true) :
    isCommentRest (' ' :: b) = false := by
  unfold isCommentRest
  rw [List.dropWhile_cons]
  have hsp : isRegexSpace ' ' = true := by decide
  rw [hsp]
  simp only [if_true]
  rw [dropWhile_word_not_space b hw]
  cases b with
  | nil => exact absurd rfl h0
  | cons d r =>
    simp only [List.all_cons, Bool.and_eq_true] at hw
    simp [List.isPrefixOf, slash_beq_word d hw.1]

theorem parseCondName_two_tokens (kw a b : Str) (ha0 : a ≠ [])
    (haw : a.all isWordChar = true) (hb0 : b ≠ []) (hbw : b.all isWordChar = true) :
    parseCondName kw (kw ++ ' ' :: (a ++ ' ' :: b)) = none := by
  have hpre : kw.isPrefixOf (kw ++ ' ' :: (a ++ ' ' :: b)) = true :=
    isPrefixOf_append_self kw _
  have hdrop : (kw ++ ' ' :: (a ++ ' ' :: b)).drop kw.length = ' ' :: (a ++ ' ' :: b) :=
    List.drop_left kw _
  unfold parseCondName
  rw [hpre]
  simp only [if_true]
  rw [hdrop]
  have hsp : isRegexSpace ' ' = true := by decide
  rw [List.takeWhile_cons, hsp]
  simp only [if_true]
  rw [List.dropWhile_cons, hsp]
  simp only [if_true]
  have hta : (a ++ ' ' :: b).takeWhile isRegexSpace = [] := by
    cases a with
    | nil => exact absurd rfl ha0
    | cons c r =>
      simp only [List.all_cons, Bool.and_eq_true] at haw
      simp [List.takeWhile_cons, isWordChar_not_regexSpace c haw.1]
  have hda : (a ++ ' ' :: b).dropWhile isRegexSpace = a ++ ' ' :: b := by
    cases a with
    | nil => exact absurd rfl ha0
    | cons c r =>
      simp only [List.all_cons, Bool.and_eq_true] at haw
      simp [List.dropWhile_cons, isWordChar_not_regexSpace c haw.1]
  rw [hta, hda]
  rw [takeWhile_append_all isWordChar a _ haw, dropWhile_append_all isWordChar a _ haw]
  have hwsp : isWordChar ' ' = false := by decide
  rw [List.takeWhile_cons, hwsp]
  rw [List.dropWhile_cons, hwsp]
  simp only [Bool.false_eq_true, if_false, List.append_nil]
  have hcr : isCommentRest (' ' :: b) = false := isCommentRest_space_word b hb0 hbw
  simp [ha0, hcr]

/-- Claim C6, counterexample.  A conditional-open directive with the name
missing entirely — the bare line `#ifdef` — is NOT reported as a
directive-syntax error: the dispatcher recognizes `#ifdef` only with a
trailing space (`strings.HasPrefix(trimmed, "#ifdef ")`), so the bare line
falls through to ordinary content processing and is emitted as a content
line. -/
theorem c6_counterexample :
    processLineWithConditionals 5 (fun _ => none) (("#ifdef").toList) (("f.sql").toList) 0
      ⟨[], []⟩ =
      .ok ([⟨("#ifdef").toList, ⟨("f.sql").toList, 1, ("f.sql").toList, 1⟩⟩], ⟨[], []⟩) := by
  decide

/-- Claim C6, amended: a conditional-open directive whose name part consists
of more than one token fails with a directive-syntax error reporting the
file and the line, and the line is not emitted; but a conditional-open
keyword with no name at all (the bare line `#ifdef`) is not recognized as a
directive — it is processed as an ordinary content line (emitted, after
substitution, when the conditional stack is live). -/
theorem c6_malformed_conditional_open :
    (∀ (fuel : Nat) (fs : FS) (f a b : Str) (ln : Nat) (p : Preprocessor),
      a ≠ [] → a.all isWordChar = true → b ≠ [] → b.all isWordChar = true →
      processLineWithConditionals (fuel + 1) fs (dIfdef ++ (a ++ ' ' :: b)) f ln p =
        .error (.invalidIfdef f (ln + 1))) ∧
    (∀ (fuel : Nat) (fs : FS) (f : Str) (ln : Nat) (p : Preprocessor),
      shouldInclude p.conditionalStack = true →
      processLineWithConditionals (fuel + 1) fs rIfdef f ln p =
        .ok ([⟨substituteVariables p.defines rIfdef, ⟨f, ln + 1, f, ln + 1⟩⟩], p)) := by
  constructor
  · intro fuel fs f a b ln p ha0 haw hb0 hbw
    have htrim : trimSpace (dIfdef ++ (a ++ ' ' :: b)) = dIfdef ++ (a ++ ' ' :: b) := by
      apply trimSpace_eq_self
      · intro c hc
        have hh : (dIfdef ++ (a ++ ' ' :: b)).head? = some '#' := rfl
        rw [hh] at hc
        cases hc
        decide
      · intro c hc
        have h1 : (dIfdef ++ (a ++ ' ' :: b)).getLast? = (a ++ ' ' :: b).getLast? :=
          getLast?_append_right _ _ (by simp)
        have h2 : (a ++ ' ' :: b).getLast? = b.getLast? := by
          rw [getLast?_append_right a (' ' :: b) (List.cons_ne_nil _ _)]
          exact getLast?_append_right [' '] b hb0
        rw [h1, h2] at hc
        exact isWordChar_not_space c (all_getLast? isWordChar b hbw c hc)
    have hpd : processIfdef (trimSpace (dIfdef ++ (a ++ ' ' :: b))) f (ln + 1) p =
        .error (.invalidIfdef f (ln + 1)) := by
      rw [htrim]
      have he : dIfdef ++ (a ++ ' ' :: b) = rIfdef ++ ' ' :: (a ++ ' ' :: b) := rfl
      rw [he]
      unfold processIfdef
      rw [parseCondName_two_tokens rIfdef a b ha0 haw hb0 hbw]
    have hpre : dIfdef.isPrefixOf (trimSpace (dIfdef ++ (a ++ ' ' :: b))) = true := by
      rw [htrim]
      exact isPrefixOf_append_self dIfdef _
    simp only [processLineWithConditionals, runP, hpre, if_true, hpd]
  · intro fuel fs f ln p hsi
    simp +decide [processLineWithConditionals, runP, hsi]

theorem c6_malformed_conditional_open_witness :
    processLineWithConditionals 6 (fun _ => none) (dIfdef ++ (("A").toList ++ ' ' :: ("B").toList))
      (("f.sql").toList) 0 ⟨[], []⟩ = .error (.invalidIfdef (("f.sql").toList) 1) ∧
    processLineWithConditionals 6 (fun _ => none) rIfdef (("f.sql").toList) 0 ⟨[], []⟩ =
      .ok ([⟨substituteVariables [] rIfdef, ⟨("f.sql").toList, 1, ("f.sql").toList, 1⟩⟩],
           (⟨[], []⟩ : Preprocessor)) :=
  ⟨c6_malformed_conditional_open.1 5 (fun _ => none) (("f.sql").toList) (("A").toList)
      (("B").toList) 0 ⟨[], []⟩ (by decide) (by decide) (by decide) (by decide),
   c6_malformed_conditional_open.2 5 (fun _ => none) (("f.sql").toList) 0 ⟨[], []⟩ (by decide)⟩

theorem c4_conditional_nesting_witness :
    processIfdef (dIfdef ++ ("X").toList) (("f.sql").toList) 1 ⟨[], []⟩ =
      .ok ⟨[], [⟨"ifdef", ("X").toList, 1, false⟩]⟩ ∧
    processIfndef (dIfndef ++ ("X").toList) (("f.sql").toList) 1 ⟨[], []⟩ =
      .ok ⟨[], [⟨"ifndef", ("X").toList, 1, true⟩]⟩ ∧
    (([] : List RawLine) = []) :=
  ⟨c4_conditional_nesting.1 (("X").toList) (("f.sql").toList) 1 ⟨[], []⟩ (by decide) (by decide),
   c4_conditional_nesting.2.1 (("X").toList) (("f.sql").toList) 1 ⟨[], []⟩ (by decide) (by decide),
   c4_conditional_nesting.2.2 5 (fun _ => none) (("SELECT 1;").toList) (("f.sql").toList) 0
     ⟨[], [⟨"ifdef", ("X").toList, 1, false⟩]⟩ []
     ⟨[], [⟨"ifdef", ("X").toList, 1, false⟩]⟩ (by decide) (by decide)⟩

/-- Claim C10: the quote-stripping step of `processDefine` evaluates
`value[1:len(value)-1]` whenever the trimmed value both starts and ends with
the same quote character; when the value is the single character `"` (or
`'`), both prefix and suffix tests succeed on the same character and the Go
slice expression `value[1:0]` panics with a slice-bounds-out-of-range
runtime error (modelled as `ProcErr.panicSlice`) instead of returning a
stored define or a syntax error.  The panic is reachable from the line
dispatcher as well. -/
theorem c10_define_quote_panic :
    processDefine (("#define X \"").toList) (("f.sql").toList) 1 ⟨[], []⟩ =
      .error .panicSlice ∧
    processLineWithConditionals 5 (fun _ => none) (("#define X \"").toList)
      (("f.sql").toList) 0 ⟨[], []⟩ = .error .panicSlice ∧
    processDefine (("#define Y '").toList) (("f.sql").toList) 3 ⟨[], []⟩ =
      .error .panicSlice := by
  refine ⟨by decide, by decide, by decide⟩

/-- Definition following the words of the spec (§4.1) for the value parsing
of a definition directive, for comparison with `processDefine`: strip a
trailing line comment (`//` and everything after) only when the `//` is not
inside quotes; running state tracks whether the scan is inside a
double- or single-quoted region. -/
def specStripCommentAux : Option Char → Str → Str
  | _, [] => []
  | none, c :: rest =>
    if c == dqc || c == sqc then c :: specStripCommentAux (some c) rest
    else if c == '/' && rest.head? == some '/' then []
    else c :: specStripCommentAux none rest
  | some q, c :: rest =>
    if c == q then c :: specStripCommentAux none rest
    else c :: specStripCommentAux (some q) rest

/-- Definition following the words of the spec (§4.1): quote-aware comment
strip, trim surrounding whitespace, then strip one layer of matching quotes
when the remaining text is fully quoted, otherwise keep the trimmed text
verbatim. -/
def specDefineValue (raw : Str) : Str :=
  let v := trimSpace (specStripCommentAux none raw)
  if 2 ≤ v.length &&
     ((v.head? == some dqc && v.getLast? == some dqc) ||
      (v.head? == some sqc && v.getLast? == some sqc)) then
    (v.drop 1).dropLast
  else v

/-- Claim C5, counterexample.  The claim requires the trailing `//` comment
to be stripped only when the `//` is not inside quotes.  The regexp of
`processDefine` is not quote-aware: on `#define URL "http://x"` it truncates
the captured value at the `//` inside the quoted string and stores the
malformed value `"http:` (with an unmatched leading quote), while the
spec-described parsing stores `http://x`. -/
theorem c5_counterexample :
    processDefine (("#define URL \"http://x\"").toList) (("f.sql").toList) 1 ⟨[], []⟩ =
      .ok ⟨[(("URL").toList, ("\"http:").toList)], []⟩ ∧
    specDefineValue (("\"http://x\"").toList) = ("http://x").toList ∧
    ("\"http:").toList ≠ ("http://x").toList := by
  refine ⟨by decide, by decide, by decide⟩

theorem parseDefine_shape (name rest : Str) (hn0 : name ≠ [])
    (hnw : name.all isWordChar = true) (hr : rest.dropWhile isRegexSpace ≠ []) :
    parseDefine (rDefine ++ ' ' :: (name ++ ' ' :: rest)) =
      some (name, cutComment (rest.dropWhile isRegexSpace)) := by
  have hpre : rDefine.isPrefixOf (rDefine ++ ' ' :: (name ++ ' ' :: rest)) = true :=
    isPrefixOf_append_self rDefine _
  have hdrop : (rDefine ++ ' ' :: (name ++ ' ' :: rest)).drop 7 =
      ' ' :: (name ++ ' ' :: rest) := rfl
  have hsp : isRegexSpace ' ' = true := by decide
  have hwsp : isWordChar ' ' = false := by decide
  have htaX : (name ++ ' ' :: rest).takeWhile isRegexSpace = [] := by
    cases name with
    | nil => exact absurd rfl hn0
    | cons c r =>
      simp only [List.all_cons, Bool.and_eq_true] at hnw
      simp [List.takeWhile_cons, isWordChar_not_regexSpace c hnw.1]
  have hdaX : (name ++ ' ' :: rest).dropWhile isRegexSpace = name ++ ' ' :: rest := by
    cases name with
    | nil => exact absurd rfl hn0
    | cons c r =>
      simp only [List.all_cons, Bool.and_eq_true] at hnw
      simp [List.dropWhile_cons, isWordChar_not_regexSpace c hnw.1]
  have hname : (name ++ ' ' :: rest).takeWhile isWordChar = name := by
    rw [takeWhile_append_all isWordChar name _ hnw]
    simp [List.takeWhile_cons, hwsp]
  have hafter : (name ++ ' ' :: rest).dropWhile isWordChar = ' ' :: rest := by
    rw [dropWhile_append_all isWordChar name _ hnw]
    simp [List.dropWhile_cons, hwsp]
  unfold parseDefine
  rw [hpre]
  simp only [if_true]
  rw [hdrop]
  rw [List.takeWhile_cons, hsp]
  simp only [if_true]
  rw [List.dropWhile_cons, hsp]
  simp only [if_true]
  rw [htaX, hdaX, hname, hafter]
  rw [List.takeWhile_cons, hsp]
  rw [List.dropWhile_cons, hsp]
  simp only [if_true]
  simp [hn0, hr]

/-- Claim C5, amended: the stored value of a definition directive is
computed by dropping the leading whitespace of the text after the name,
truncating at the first point where an optional-whitespace-then-`//`
trailing comment can match — regardless of whether that `//` lies inside
quotes — then trimming surrounding whitespace, and finally removing the
first and last characters whenever the remaining text both starts and ends
with `"` or both with `'` (the check does not require the text to be fully
quoted, and a value that is a single quote character makes the slice
expression panic); otherwise the trimmed text is stored verbatim, embedded
spaces included. -/
theorem c5_define_value_characterization (name rest f : Str) (ln : Nat)
    (p : Preprocessor) (hn0 : name ≠ []) (hnw : name.all isWordChar = true)
    (hr : rest.dropWhile isRegexSpace ≠ []) :
    processDefine (rDefine ++ ' ' :: (name ++ ' ' :: rest)) f ln p =
      (let v := trimSpace (cutComment (rest.dropWhile isRegexSpace))
       if (v.head? == some dqc && v.getLast? == some dqc) ||
          (v.head? == some sqc && v.getLast? == some sqc) then
         if 2 ≤ v.length then .ok (setDefine p name ((v.drop 1).dropLast))
         else .error .panicSlice
       else .ok (setDefine p name v)) := by
  unfold processDefine
  rw [parseDefine_shape name rest hn0 hnw hr]

theorem c5_define_value_characterization_witness :
    processDefine (rDefine ++ ' ' :: (("URL").toList ++ ' ' :: ("\"http://x\"").toList))
      (("f.sql").toList) 1 ⟨[], []⟩ =
      (let v := trimSpace (cutComment ((("\"http://x\"").toList).dropWhile isRegexSpace))
       if (v.head? == some dqc && v.getLast? == some dqc) ||
          (v.head? == some sqc && v.getLast? == some sqc) then
         if 2 ≤ v.length then
           .ok (setDefine ⟨[], []⟩ (("URL").toList) ((v.drop 1).dropLast))
         else .error .panicSlice
       else .ok (setDefine ⟨[], []⟩ (("URL").toList) v)) :=
  c5_define_value_characterization (("URL").toList) (("\"http://x\"").toList)
    (("f.sql").toList) 1 ⟨[], []⟩ (by decide) (by decide) (by decide)

/-- The fixed command list of `IsSchemaCommand` (schema introspector). -/
def schemaCommands : List Str :=
  [("@schema-all").toList, ("@schema-tables").toList, ("@schema-views").toList,
   ("@schema-procedures").toList, ("@schema-functions").toList, ("@drivers").toList]

/-- `schema.IsSchemaCommand`: prefix match of the trimmed line against the
fixed command set. -/
def isSchemaCommand (line : Str) : Bool :=
  schemaCommands.any (fun c => c.isPrefixOf (trimSpace line))

/-- The batch-delimiter test of `parseStatementsFromLines` (processor.go:239):
lowercase, trim, then either exactly `go` or the prefix `go `. -/
def isGoDelim (line : Str) : Bool :=
  let t := trimSpace (line.map toLowerChar)
  ("go ").toList.isPrefixOf t || t == ("go").toList

/-- `Statement` (processor.go:107). -/
structure Statement where
  sql : Str
  startLine : Nat
  endLine : Nat
  fileName : Str
  location : SourceLocation
deriving DecidableEq, Repr

/-- The zero value of `SourceLocation` (initial `startLocation`). -/
def zeroLoc : SourceLocation := ⟨[], 0, [], 0⟩

/-- The loop of `parseStatementsFromLines` (processor.go:202-278).  `i` is
the 0-based index of the current line, `cur` the accumulated buffer (each
contributed line followed by a newline), `sl` / `sloc` the recorded start
line and start location of the buffer. -/
def parseStatementsAux (locs : List SourceLocation) :
    List Str → Nat → Str → Nat → SourceLocation → List Statement
  | [], i, cur, sl, sloc =>
    if cur ≠ [] then [⟨trimSpace cur, sl, i, sloc.fileName, sloc⟩] else []
  | line :: rest, i, cur, sl, sloc =>
    if isSchemaCommand line then
      (if cur ≠ [] then [⟨trimSpace cur, sl, i, sloc.fileName, sloc⟩] else []) ++
      (let loc := match locs.get? i with | some l => l | none => sloc
       ⟨trimSpace line, i + 1, i + 1, loc.fileName, loc⟩ ::
         parseStatementsAux locs rest (i + 1) [] sl sloc)
    else if isGoDelim line then
      (if cur ≠ [] then [⟨trimSpace cur, sl, i, sloc.fileName, sloc⟩] else []) ++
        parseStatementsAux locs rest (i + 1) [] sl sloc
    else
      let sl' := if cur = [] then i + 1 else sl
      let sloc' := if cur = [] then
          (match locs.get? i with | some l => l | none => sloc) else sloc
      parseStatementsAux locs rest (i + 1) (cur ++ line ++ ['\n']) sl' sloc'

/-- `parseStatementsFromLines` (processor.go:202): assemble the preprocessed
lines into statements. -/
def parseStatementsFromLines (lines : List Str) (locs : List SourceLocation) :
    List Statement :=
  parseStatementsAux locs lines 0 [] 0 zeroLoc

theorem dropWhile_idem (p : Char → Bool) (l : Str) :
    (l.dropWhile p).dropWhile p = l.dropWhile p := by
  induction l with
  | nil => rfl
  | cons c rest ih =>
    by_cases hc : p c = true
    · simp [List.dropWhile_cons, hc, ih]
    · simp only [Bool.not_eq_true] at hc
      simp [List.dropWhile_cons, hc]

theorem dropWhile_is_suffix (p : Char → Bool) (l : Str) :
    ∃ t, t ++ l.dropWhile p = l := by
  induction l with
  | nil => exact ⟨[], rfl⟩
  | cons c rest ih =>
    by_cases hc : p c = true
    · obtain ⟨t, ht⟩ := ih
      exact ⟨c :: t, by simp [List.dropWhile_cons, hc, ht]⟩
    · simp only [Bool.not_eq_true] at hc
      exact ⟨[], by simp [List.dropWhile_cons, hc]⟩

theorem dropWhile_length_le (p : Char → Bool) (l : Str) :
    (l.dropWhile p).length ≤ l.length := by
  induction l with
  | nil => simp
  | cons c rest ih =>
    by_cases hc : p c = true
    · rw [List.dropWhile_cons, if_pos hc]
      simp only [List.length_cons]
      omega
    · simp only [Bool.not_eq_true] at hc
      rw [List.dropWhile_cons, hc]
      simp

theorem trimRight_keeps_left_trimmed (y : Str)
    (hy : y.dropWhile isSpaceChar = y) :
    (trimRight y).dropWhile isSpaceChar = trimRight y := by
  obtain ⟨t, ht⟩ := dropWhile_is_suffix isSpaceChar y.reverse
  have hTR : trimRight y ++ t.reverse = y := by
    unfold trimRight
    calc (y.reverse.dropWhile isSpaceChar).reverse ++ t.reverse
        = (t ++ y.reverse.dropWhile isSpaceChar).reverse := by
          rw [List.reverse_append]
      _ = y := by rw [ht, List.reverse_reverse]
  cases hc : trimRight y with
  | nil => rfl
  | cons c r =>
    have hyc : y = c :: (r ++ t.reverse) := by
      rw [← hTR, hc]
      simp
    have hpc : isSpaceChar c = false := by
      by_contra hcc
      simp only [Bool.not_eq_false] at hcc
      rw [hyc, List.dropWhile_cons] at hy
      rw [hcc] at hy
      rw [if_pos rfl] at hy
      have hlen := congrArg List.length hy
      rw [List.length_cons] at hlen
      have hle := dropWhile_length_le isSpaceChar (r ++ t.reverse)
      omega
    simp [List.dropWhile_cons, hpc]

theorem trimSpace_idem (s : Str) : trimSpace (trimSpace s) = trimSpace s := by
  unfold trimSpace
  have h1 : trimLeft (trimRight (trimLeft s)) = trimRight (trimLeft s) := by
    unfold trimLeft
    exact trimRight_keeps_left_trimmed (trimLeft s) (dropWhile_idem isSpaceChar s)
  rw [h1]
  unfold trimRight
  rw [List.reverse_reverse, dropWhile_idem]

/-- Claim C7, counterexample.  On the input lines `""` then `"go"` (a buffer
holding only a blank line, flushed by the delimiter), `parseStatementsFromLines`
emits one `Statement` whose text is empty — a statement with zero
non-whitespace content, which the claim says is never emitted.  (Such empty
statements are only discarded later, by the executor.) -/
theorem c7_counterexample :
    parseStatementsFromLines [[], ("go").toList] [] =
      [⟨[], 1, 1, [], zeroLoc⟩] := by decide

theorem parseStatementsAux_trimmed (locs : List SourceLocation) :
    ∀ (lines : List Str) (i : Nat) (cur : Str) (sl : Nat) (sloc : SourceLocation),
    ∀ s ∈ parseStatementsAux locs lines i cur sl sloc, ∃ x, s.sql = trimSpace x := by
  intro lines
  induction lines with
  | nil =>
    intro i cur sl sloc s hs
    unfold parseStatementsAux at hs
    split at hs
    · simp only [List.mem_singleton] at hs
      exact ⟨cur, by rw [hs]⟩
    · simp at hs
  | cons line rest ih =>
    intro i cur sl sloc s hs
    unfold parseStatementsAux at hs
    split at hs
    · rw [List.mem_append] at hs
      rcases hs with hs | hs
      · split at hs
        · simp only [List.mem_singleton] at hs
          exact ⟨cur, by rw [hs]⟩
        · simp at hs
      · simp only [List.mem_cons] at hs
        rcases hs with hs | hs
        · exact ⟨line, by rw [hs]⟩
        · exact ih (i + 1) [] sl sloc s hs
    · split at hs
      · rw [List.mem_append] at hs
        rcases hs with hs | hs
        · split at hs
          · simp only [List.mem_singleton] at hs
            exact ⟨cur, by rw [hs]⟩
          · simp at hs
        · exact ih (i + 1) [] sl sloc s hs
      · exact ih (i + 1) (cur ++ line ++ ['\n']) _ _ s hs

/-- Claim C7, amended: every `Statement` produced by the assembly of
`parseStatementsFromLines` has text trimmed of leading and trailing
whitespace; however, when the accumulated buffer contains only blank or
whitespace-only lines at a delimiter or at end of input, a `Statement` with
zero non-whitespace content IS emitted (it is discarded only later, at
execution time). -/
theorem c7_statement_text_trimmed (lines : List Str) (locs : List SourceLocation) :
    ∀ s ∈ parseStatementsFromLines lines locs, s.sql = trimSpace s.sql := by
  intro s hs
  obtain ⟨x, hx⟩ := parseStatementsAux_trimmed locs lines 0 [] 0 zeroLoc s hs
  rw [hx, trimSpace_idem]

theorem c7_statement_text_trimmed_witness :
    (⟨("SELECT 1;").toList, 1, 1, [], zeroLoc⟩ : Statement).sql =
      trimSpace (⟨("SELECT 1;").toList, 1, 1, [], zeroLoc⟩ : Statement).sql :=
  c7_statement_text_trimmed [("  SELECT 1;  ").toList, ("go").toList] []
    ⟨("SELECT 1;").toList, 1, 1, [], zeroLoc⟩ (by decide)

/-- The origin property of an emitted line: its location names a real line
of the file system — the very line, at its own 1-based number, of the file
named in the location — that line is an ordinary content line (not a
directive), the emitted text is that line after substitution under some
define table, and the `original*` fields equal the current ones. -/
def originOK (fs : FS) (rl : RawLine) : Prop :=
  ∃ raw, lineAt fs rl.loc.fileName rl.loc.lineNumber = some raw ∧
    isDirectiveLine raw = false ∧
    (∃ ds, rl.text = substituteVariables ds raw) ∧
    rl.loc.originalFile = rl.loc.fileName ∧
    rl.loc.originalLine = rl.loc.lineNumber

/-- Side condition tying a pending job to the file system: a lines-job must
hold exactly the not-yet-consumed suffix of its file's lines. -/
def jobOK (fs : FS) : PJob → Prop
  | .file _ => True
  | .lines f lines ln => ∃ all, fs f = some all ∧ lines = all.drop ln

theorem drop_cons_split (all rest : List Str) (line : Str) (ln : Nat)
    (h : all.drop ln = line :: rest) :
    all.get? ln = some line ∧ all.drop (ln + 1) = rest := by
  induction ln generalizing all with
  | zero =>
    rw [List.drop_zero] at h
    subst h
    exact ⟨rfl, by simp⟩
  | succ n ihn =>
    cases all with
    | nil => simp at h
    | cons a all' =>
      rw [List.drop_succ_cons] at h
      obtain ⟨h1, h2⟩ := ihn all' h
      exact ⟨by rw [List.get?_cons_succ]; exact h1, by rw [List.drop_succ_cons]; exact h2⟩

theorem runP_originOK : ∀ (fuel : Nat) (fs : FS) (p : Preprocessor) (job : PJob)
    (out : List RawLine) (p' : Preprocessor),
    runP fuel fs p job = .ok (out, p') → jobOK fs job →
    ∀ rl ∈ out, originOK fs rl := by
  intro fuel
  induction fuel with
  | zero =>
    intro fs p job out p' hrun hjob rl hmem
    cases job with
    | file f => simp [runP] at hrun
    | lines f lines ln =>
      cases lines with
      | nil =>
        simp only [runP, Except.ok.injEq, Prod.mk.injEq] at hrun
        rw [← hrun.1] at hmem
        simp at hmem
      | cons l r => simp [runP] at hrun
  | succ fuel ih =>
    intro fs p job out p' hrun hjob rl hmem
    cases job with
    | file f =>
      simp only [runP] at hrun
      cases hfs : fs f with
      | none => simp [hfs] at hrun
      | some ls =>
        simp only [hfs] at hrun
        cases hr1 : runP fuel fs p (.lines f ls 0) with
        | error e => simp [hr1] at hrun
        | ok r1 =>
          obtain ⟨out1, p1⟩ := r1
          simp only [hr1] at hrun
          split at hrun
          · simp only [Except.ok.injEq, Prod.mk.injEq] at hrun
            rw [← hrun.1] at hmem
            exact ih fs p (.lines f ls 0) out1 p1 hr1 ⟨ls, hfs, by simp⟩ rl hmem
          · exact absurd hrun (by simp)
    | lines f lines ln =>
      cases lines with
      | nil =>
        simp only [runP, Except.ok.injEq, Prod.mk.injEq] at hrun
        rw [← hrun.1] at hmem
        simp at hmem
      | cons line rest =>
        obtain ⟨all, hfs, hdrop⟩ := hjob
        obtain ⟨hget, hdrop'⟩ := drop_cons_split all rest line ln hdrop.symm
        have hjob' : jobOK fs (.lines f rest (ln + 1)) := ⟨all, hfs, hdrop'.symm⟩
        simp only [runP] at hrun
        by_cases h1 : dIfdef.isPrefixOf (trimSpace line) = true
        · rw [if_pos h1] at hrun
          cases hpi : processIfdef (trimSpace line) f (ln + 1) p with
          | error e => simp [hpi] at hrun
          | ok p1 =>
            simp only [hpi] at hrun
            exact ih fs p1 (.lines f rest (ln + 1)) out p' hrun hjob' rl hmem
        · rw [if_neg h1] at hrun
          by_cases h2 : dIfndef.isPrefixOf (trimSpace line) = true
          · rw [if_pos h2] at hrun
            cases hpi : processIfndef (trimSpace line) f (ln + 1) p with
            | error e => simp [hpi] at hrun
            | ok p1 =>
              simp only [hpi] at hrun
              exact ih fs p1 (.lines f rest (ln + 1)) out p' hrun hjob' rl hmem
          · rw [if_neg h2] at hrun
            by_cases h3 : (trimSpace line == dEnd) = true
            · rw [if_pos h3] at hrun
              cases hpe : processEnd f (ln + 1) p with
              | error e => simp [hpe] at hrun
              | ok p1 =>
                simp only [hpe] at hrun
                exact ih fs p1 (.lines f rest (ln + 1)) out p' hrun hjob' rl hmem
            · rw [if_neg h3] at hrun
              by_cases h4 : (!shouldInclude p.conditionalStack) = true
              · rw [if_pos h4] at hrun
                exact ih fs p (.lines f rest (ln + 1)) out p' hrun hjob' rl hmem
              · rw [if_neg h4] at hrun
                by_cases h5 : dDefine.isPrefixOf (trimSpace line) = true
                · rw [if_pos h5] at hrun
                  cases hpd : processDefine (trimSpace line) f (ln + 1) p with
                  | error e => simp [hpd] at hrun
                  | ok p1 =>
                    simp only [hpd] at hrun
                    exact ih fs p1 (.lines f rest (ln + 1)) out p' hrun hjob' rl hmem
                · rw [if_neg h5] at hrun
                  by_cases h6 : dInclude.isPrefixOf (trimSpace line) = true
                  · rw [if_pos h6] at hrun
                    cases hpt : parseIncludeTarget (trimSpace line) with
                    | none => simp [hpt] at hrun
                    | some target =>
                      simp only [hpt] at hrun
                      cases hincl : runP fuel fs p (.file (resolvePath f target)) with
                      | error e => simp [hincl] at hrun
                      | ok r1 =>
                        obtain ⟨outI, p1⟩ := r1
                        simp only [hincl] at hrun
                        cases hrest : runP fuel fs p1 (.lines f rest (ln + 1)) with
                        | error e => simp [hrest] at hrun
                        | ok r2 =>
                          obtain ⟨out2, p2⟩ := r2
                          simp only [hrest, Except.ok.injEq, Prod.mk.injEq] at hrun
                          rw [← hrun.1] at hmem
                          rw [List.mem_append] at hmem
                          rcases hmem with hm | hm
                          · exact ih fs p (.file (resolvePath f target)) outI p1 hincl
                              trivial rl hm
                          · exact ih fs p1 (.lines f rest (ln + 1)) out2 p2 hrest hjob' rl hm
                  · rw [if_neg h6] at hrun
                    cases hrest : runP fuel fs p (.lines f rest (ln + 1)) with
                    | error e => simp [hrest] at hrun
                    | ok r2 =>
                      obtain ⟨out2, p2⟩ := r2
                      simp only [hrest, Except.ok.injEq, Prod.mk.injEq] at hrun
                      rw [← hrun.1] at hmem
                      rw [List.mem_cons] at hmem
                      rcases hmem with hm | hm
                      · subst hm
                        refine ⟨line, ?_, ?_, ⟨p.defines, rfl⟩, rfl, rfl⟩
                        · unfold lineAt
                          rw [hfs]
                          simp only [Nat.add_sub_cancel]
                          exact hget
                        · simp only [Bool.not_eq_true] at h1 h2 h3 h5 h6
                          simp [isDirectiveLine, h1, h2, h3, h5, h6]
                      · exact ih fs p (.lines f rest (ln + 1)) out2 p2 hrest hjob' rl hm

/-- Claim C1: every line emitted by a (possibly recursive) `ProcessFile`
expansion carries as its origin the path of the file that physically
contains it and the line's own 1-based number within that file: the
location points at a real line of the named file, that line is an ordinary
content line (so in particular the location can never be the including
file's `#include` directive line), the emitted text is that line after
substitution under some define table, and the `Original*` fields agree with
the current ones.  Lines spliced from an included file thus carry the
included file's path and their own line numbers, never the including
file's. -/
theorem c1_include_origin (fuel : Nat) (fs : FS) (p : Preprocessor) (f : Str)
    (out : List RawLine) (p' : Preprocessor)
    (h : processFileFs fuel fs p f = .ok (out, p')) :
    ∀ rl ∈ out, originOK fs rl :=
  runP_originOK fuel fs p (.file f) out p' h trivial

/-- The two-file system of the cross-file origin witness. -/
def fsC1 : FS := fun pth =>
  if pth = ("main.sql").toList then
    some [("SELECT 1;").toList, ("#include \"inc.sql\"").toList]
  else if pth = ("inc.sql").toList then some [("hello").toList]
  else none

theorem c1_include_origin_witness :
    originOK fsC1 ⟨("hello").toList, ⟨("inc.sql").toList, 1, ("inc.sql").toList, 1⟩⟩ :=
  c1_include_origin 10 fsC1 ⟨[], []⟩ (("main.sql").toList)
    [⟨("SELECT 1;").toList, ⟨("main.sql").toList, 1, ("main.sql").toList, 1⟩⟩,
     ⟨("hello").toList, ⟨("inc.sql").toList, 1, ("inc.sql").toList, 1⟩⟩]
    ⟨[], []⟩ (by decide)
    ⟨("hello").toList, ⟨("inc.sql").toList, 1, ("inc.sql").toList, 1⟩⟩ (by decide)

theorem runP_content_lines (lines : List Str) :
    ∀ (fuel : Nat) (fs : FS) (p : Preprocessor) (f : Str) (ln : Nat),
    (∀ l ∈ lines, isDirectiveLine l = false) →
    shouldInclude p.conditionalStack = true →
    ∃ out, runP (fuel + lines.length) fs p (.lines f lines ln) = .ok (out, p) := by
  induction lines with
  | nil =>
    intro fuel fs p f ln _ _
    exact ⟨[], by simp [runP]⟩
  | cons line rest ih =>
    intro fuel fs p f ln hnd hsi
    have hl : isDirectiveLine line = false := hnd line (List.mem_cons_self line rest)
    have hrest : ∀ l ∈ rest, isDirectiveLine l = false :=
      fun l hlm => hnd l (List.mem_cons_of_mem line hlm)
    obtain ⟨out2, hout2⟩ := ih fuel fs p f (ln + 1) hrest hsi
    simp only [isDirectiveLine, Bool.or_eq_false_iff] at hl
    obtain ⟨⟨⟨⟨h1, h2⟩, h3⟩, h5⟩, h6⟩ := hl
    refine ⟨⟨substituteVariables p.defines line, ⟨f, ln + 1, f, ln + 1⟩⟩ :: out2, ?_⟩
    show runP ((fuel + rest.length) + 1) fs p (.lines f (line :: rest) ln) = _
    simp only [runP]
    rw [if_neg (show ¬(dIfdef.isPrefixOf (trimSpace line) = true) from by simp [h1])]
    rw [if_neg (show ¬(dIfndef.isPrefixOf (trimSpace line) = true) from by simp [h2])]
    rw [if_neg (show ¬((trimSpace line == dEnd) = true) from by simp [h3])]
    rw [if_neg (show ¬((!shouldInclude p.conditionalStack) = true) from by simp [hsi])]
    rw [if_neg (show ¬(dDefine.isPrefixOf (trimSpace line) = true) from by simp [h5])]
    rw [if_neg (show ¬(dInclude.isPrefixOf (trimSpace line) = true) from by simp [h6])]
    simp only [hout2]

theorem parseIncludeTarget_quoted (target : Str) (h0 : target ≠ [])
    (hq : target.all (fun c => c != dqc) = true) :
    parseIncludeTarget (dInclude ++ dqc :: (target ++ [dqc])) = some target := by
  have he : dInclude ++ dqc :: (target ++ [dqc]) =
      rInclude ++ ' ' :: dqc :: (target ++ [dqc]) := rfl
  rw [he]
  have hpre : rInclude.isPrefixOf (rInclude ++ ' ' :: dqc :: (target ++ [dqc])) = true :=
    isPrefixOf_append_self _ _
  have hdrop : (rInclude ++ ' ' :: dqc :: (target ++ [dqc])).drop 8 =
      ' ' :: dqc :: (target ++ [dqc]) := rfl
  have hsp : isRegexSpace ' ' = true := by decide
  have hqs : isRegexSpace dqc = false := by decide
  have hbq : (dqc == dqc) = true := by decide
  have hnq : (dqc != dqc) = false := by decide
  unfold parseIncludeTarget
  rw [hpre]
  simp only [if_true]
  rw [hdrop]
  rw [List.takeWhile_cons, hsp]
  simp only [if_true]
  rw [List.takeWhile_cons, hqs]
  rw [List.dropWhile_cons, hsp]
  simp only [if_true]
  rw [List.dropWhile_cons, hqs]
  simp only [Bool.false_eq_true, if_false]
  rw [takeWhile_append_all (fun c => c != dqc) target _ hq]
  rw [dropWhile_append_all (fun c => c != dqc) target _ hq]
  rw [List.takeWhile_cons, hnq]
  rw [List.dropWhile_cons, hnq]
  simp only [Bool.false_eq_true, if_false, List.append_nil]
  simp [hbq, h0]

/-- Claim C9: conditional balance is enforced per physical file against the
single shared stack.  A script that opens a conditional frame whose test is
true (here `#ifndef` of an undefined name, starting from an empty stack) and
then, with the frame still open, includes a file of ordinary content lines,
fails: the included file's `processReader` runs `ValidateConditionals`
against the shared stack — still holding the opening frame — and reports an
unclosed-conditional structural error naming the *included* file, wrapped in
the including line's inclusion error; the included lines are not spliced
and the frame is not left to be closed later in the including file. -/
theorem c9_shared_conditional_stack (fuel : Nat) (fs : FS) (f n target : Str)
    (gl : List Str) (p : Preprocessor)
    (hn0 : n ≠ []) (hnw : n.all isWordChar = true)
    (hnd : hasDefine p n = false)
    (hstack : p.conditionalStack = [])
    (hmain : fs f = some [dIfndef ++ n, dInclude ++ dqc :: (target ++ [dqc])])
    (ht0 : target ≠ []) (htq : target.all (fun c => c != dqc) = true)
    (hg : fs (resolvePath f target) = some gl)
    (hgl : ∀ l ∈ gl, isDirectiveLine l = false) :
    processFileFs (fuel + gl.length + 4) fs p f =
      .error (.includeWrap f 2 (.unclosedBlocks (resolvePath f target))) := by
  have htr1 : trimSpace (dIfndef ++ n) = dIfndef ++ n := by
    apply trimSpace_eq_self
    · intro c hc
      have hh : (dIfndef ++ n).head? = some '#' := rfl
      rw [hh] at hc
      cases hc
      decide
    · intro c hc
      rw [getLast?_append_right dIfndef n hn0] at hc
      exact isWordChar_not_space c (all_getLast? isWordChar n hnw c hc)
  have htr2 : trimSpace (dInclude ++ dqc :: (target ++ [dqc])) =
      dInclude ++ dqc :: (target ++ [dqc]) := by
    apply trimSpace_eq_self
    · intro c hc
      have hh : (dInclude ++ dqc :: (target ++ [dqc])).head? = some '#' := rfl
      rw [hh] at hc
      cases hc
      decide
    · intro c hc
      have hsh : dqc :: (target ++ [dqc]) = (dqc :: target) ++ [dqc] := by simp
      rw [getLast?_append_right dInclude _ (List.cons_ne_nil _ _), hsh,
        getLast?_append_right (dqc :: target) [dqc] (List.cons_ne_nil _ _)] at hc
      simp only [List.getLast?_singleton, Option.some.injEq] at hc
      rw [← hc]
      decide
  have hifn : processIfndef (dIfndef ++ n) f 1 p =
      .ok { p with conditionalStack := [⟨"ifndef", n, 1, true⟩] } := by
    unfold processIfndef
    rw [show dIfndef ++ n = rIfndef ++ ' ' :: n from rfl]
    simp only [parseCondName_name rIfndef n hn0 hnw, hnd, hstack]
    rfl
  show runP ((fuel + gl.length).succ.succ.succ.succ) fs p (.file f) = _
  simp only [runP, hmain, Nat.zero_add, htr1, htr2]
  rw [if_neg (show ¬(dIfdef.isPrefixOf (dIfndef ++ n) = true)
    from by rw [show dIfdef.isPrefixOf (dIfndef ++ n) = false from rfl]; simp)]
  rw [if_pos (show dIfndef.isPrefixOf (dIfndef ++ n) = true
    from isPrefixOf_append_self _ _)]
  simp only [hifn]
  rw [if_neg (show ¬(dIfdef.isPrefixOf (dInclude ++ dqc :: (target ++ [dqc])) = true)
    from by rw [show dIfdef.isPrefixOf (dInclude ++ dqc :: (target ++ [dqc])) = false
      from rfl]; simp)]
  rw [if_neg (show ¬(dIfndef.isPrefixOf (dInclude ++ dqc :: (target ++ [dqc])) = true)
    from by rw [show dIfndef.isPrefixOf (dInclude ++ dqc :: (target ++ [dqc])) = false
      from rfl]; simp)]
  rw [if_neg (show ¬(((dInclude ++ dqc :: (target ++ [dqc])) == dEnd) = true)
    from by rw [show ((dInclude ++ dqc :: (target ++ [dqc])) == dEnd) = false
      from rfl]; simp)]
  rw [if_neg (show ¬((!shouldInclude (({ p with conditionalStack :=
      [⟨"ifndef", n, 1, true⟩] } : Preprocessor)).conditionalStack) = true)
    from by simp [shouldInclude])]
  rw [if_neg (show ¬(dDefine.isPrefixOf (dInclude ++ dqc :: (target ++ [dqc])) = true)
    from by rw [show dDefine.isPrefixOf (dInclude ++ dqc :: (target ++ [dqc])) = false
      from rfl]; simp)]
  rw [if_pos (show dInclude.isPrefixOf (dInclude ++ dqc :: (target ++ [dqc])) = true
    from isPrefixOf_append_self _ _)]
  simp only [parseIncludeTarget_quoted target ht0 htq, hg]
  obtain ⟨outg, houtg⟩ := runP_content_lines gl fuel fs
    { p with conditionalStack := [⟨"ifndef", n, 1, true⟩] }
    (resolvePath f target) 0 hgl rfl
  simp only [houtg]
  rfl

/-- The two-file system of the shared-stack witness. -/
def fsC9 : FS := fun pth =>
  if pth = ("main.sql").toList then
    some [("#ifndef ZZZ").toList, ("#include \"g.sql\"").toList]
  else if pth = ("g.sql").toList then some [("SELECT 1;").toList]
  else none

theorem c9_shared_conditional_stack_witness :
    processFileFs 5 fsC9 ⟨[], []⟩ (("main.sql").toList) =
      .error (.includeWrap (("main.sql").toList) 2
        (.unclosedBlocks (resolvePath (("main.sql").toList) (("g.sql").toList)))) :=
  c9_shared_conditional_stack 0 fsC9 (("main.sql").toList) (("ZZZ").toList)
    (("g.sql").toList) [("SELECT 1;").toList] ⟨[], []⟩
    (by decide) (by decide) (by decide) (by decide) (by decide) (by decide)
    (by decide) (by decide) (by decide)
